import Mathlib

/-!
Verification of the nitpik/toolkit token-list core.

The development shallowly embeds `src/abstract-token-list.js` and
`src/cstyle-token-list.js`.  JavaScript objects with identity semantics are
modelled as values of the structure `Token`; the doubly-linked `OrderedSet`
a list holds is modelled as a `List Token` in which a member token is
addressed by its position, which plays the role of object identity (all
lists produced by the construction algorithm and the guarded mutation
operations are duplicate-free, so position and identity coincide).
Source text is a `List Char`; the scan cursor is a `Nat` index.
-/

namespace Nitpik

/-- A token, mirroring the object shape `{ type, value, range }` used
throughout `abstract-token-list.js`.  `range` is the half-open
`[start, end)` pair `[range[0], range[1]]`. -/
structure Token where
  type : String
  value : String
  range : Nat × Nat
deriving Repr, DecidableEq

/-- `TokenListOptions` from `abstract-token-list.js`: `lineEndings`,
`collapseWhitespace` and `newLinePattern` (the regular expression is
modelled as a decidable character predicate). -/
structure TokenListOptions where
  lineEndings : String
  collapseWhitespace : Bool
  newLinePattern : Char → Bool

/-- The regular expression `WHITESPACE = /\s/` of `abstract-token-list.js`,
as a decidable predicate over the characters JavaScript `\s` matches. -/
def jsWhitespace (c : Char) : Bool :=
  c == ' ' || c == '\t' || c == '\n' || c == '\r' || c == '\x0b' || c == '\x0c' ||
  c == '\u00A0' || c == '\u1680' || ('\u2000' ≤ c && c ≤ '\u200A') ||
  c == '\u2028' || c == '\u2029' || c == '\u202F' || c == '\u205F' ||
  c == '\u3000' || c == '\uFEFF'

/-- The exported pattern `NEWLINE = /[\r\n]/`. -/
def NEWLINE (c : Char) : Bool := c == '\r' || c == '\n'

/-- `DEFAULT_OPTIONS` from `abstract-token-list.js`. -/
def DEFAULT_OPTIONS : TokenListOptions :=
  { lineEndings := "\n", collapseWhitespace := true, newLinePattern := NEWLINE }

/-- The helper `isWhitespace(c, options)`: a whitespace character that the
configured newline pattern does not match. -/
def isWhitespaceChar (c : Char) (options : TokenListOptions) : Bool :=
  jsWhitespace c && !(options.newLinePattern c)

/-- `AbstractTokenList` state: the ordered member sequence plus the private
`rangeStarts` map from text offset to token. -/
structure AbstractTokenList where
  items : List Token
  rangeStarts : Nat → Option Token

/-- The empty list produced by `new AbstractTokenList()`. -/
def emptyList : AbstractTokenList := { items := [], rangeStarts := fun _ => none }

/-- `AbstractTokenList.add(part)`: the underlying `OrderedSet.add` rejects a
part that is already a member (the state is then unchanged, the error
propagating to the caller); on success the part is appended and, since every
token in this code base carries a range, `rangeStarts` records it. -/
def add (st : AbstractTokenList) (part : Token) : AbstractTokenList :=
  if part ∈ st.items then st
  else
    { items := st.items ++ [part]
      rangeStarts := fun n => if n = part.range.1 then some part else st.rangeStarts n }

/-- `AbstractTokenList.delete(part)`: the underlying `OrderedSet.delete`
rejects a non-member (state unchanged); on success the member is removed and
its `rangeStarts` entry is deleted. -/
def deleteTok (st : AbstractTokenList) (part : Token) : AbstractTokenList :=
  if part ∈ st.items then
    { items := st.items.erase part
      rangeStarts := fun n => if n = part.range.1 then none else st.rangeStarts n }
  else st

/-- Insertion of `part` directly before the member `related`, on the plain
member sequence. -/
def insertListBefore (xs : List Token) (part related : Token) : List Token :=
  match xs with
  | [] => []
  | x :: rest =>
    if x = related then part :: x :: rest else x :: insertListBefore rest part related

/-- Insertion of `part` directly after the member `related`, on the plain
member sequence. -/
def insertListAfter (xs : List Token) (part related : Token) : List Token :=
  match xs with
  | [] => []
  | x :: rest =>
    if x = related then x :: part :: rest else x :: insertListAfter rest part related

/-- `AbstractTokenList.insertBefore(part, relatedPart)`: the underlying set
rejects a `part` that is already a member or a `relatedPart` that is not
(state unchanged); on success the part is linked in and `rangeStarts`
records it. -/
def insertBefore (st : AbstractTokenList) (part related : Token) : AbstractTokenList :=
  if part ∉ st.items ∧ related ∈ st.items then
    { items := insertListBefore st.items part related
      rangeStarts := fun n => if n = part.range.1 then some part else st.rangeStarts n }
  else st

/-- `AbstractTokenList.insertAfter(part, relatedPart)`, as `insertBefore`. -/
def insertAfter (st : AbstractTokenList) (part related : Token) : AbstractTokenList :=
  if part ∉ st.items ∧ related ∈ st.items then
    { items := insertListAfter st.items part related
      rangeStarts := fun n => if n = part.range.1 then some part else st.rangeStarts n }
  else st

/-- `getByRangeStart(start)`: read the private `rangeStarts` map. -/
def getByRangeStart (st : AbstractTokenList) (start : Nat) : Option Token :=
  st.rangeStarts start

/-- `isWhitespace(token)`: `Boolean(token && token.type === "Whitespace")`.
The argument is an `Option` because the method is routinely called on a
possibly-undefined token. -/
def isWhitespaceB : Option Token → Bool
  | some t => t.type == "Whitespace"
  | none => false

/-- `isLineBreak(token)`: `Boolean(token && token.type === "LineBreak")`. -/
def isLineBreakB : Option Token → Bool
  | some t => t.type == "LineBreak"
  | none => false

/-- `isWhitespaceOrLineBreak(token)`: the disjunction of the two. -/
def isWhitespaceOrLineBreakB (t : Option Token) : Bool :=
  isWhitespaceB t || isLineBreakB t

/-- `isComment` on a token that is known to be present:
`token.type.endsWith("Comment")`. -/
def isCommentTok (t : Token) : Bool := "Comment".data.isSuffixOf t.type.data

/-- `isComment(token)` reads `token.type.endsWith("Comment")` with no
undefined guard: on an absent token the JavaScript method throws a
TypeError, which the `none` result of this model represents. -/
def isCommentB : Option Token → Option Bool
  | some t => some (isCommentTok t)
  | none => none

/-- The scan of the maximal whitespace run in `buildTokenList`
(`do index++ while isWhitespace(text.charAt(index))`), iterating down the
text suffix that starts at the cursor: counts past every leading
non-newline-whitespace character (`charAt` out of bounds yields the empty
string, which `/\s/` rejects, so the scan also stops at text end). -/
def wsRunEndAux (options : TokenListOptions) : List Char → Nat → Nat
  | [], i => i
  | c :: rest, i => if isWhitespaceChar c options then wsRunEndAux options rest (i + 1) else i

/-- The first position at or beyond `i` whose character is not non-newline
whitespace. -/
def wsRunEnd (text : List Char) (options : TokenListOptions) (i : Nat) : Nat :=
  wsRunEndAux options (text.drop i) i

/-- `text.slice(a, b)` as a character list. -/
def sliceChars (text : List Char) (a b : Nat) : List Char :=
  (text.drop a).take (b - a)

/-- One execution of the non-token part of the `buildTokenList` loop body:
the cursor character is inspected and a `LineBreak` or `Whitespace` token is
synthesized (or nothing happens, which in JavaScript leaves the loop
spinning forever on the same index).  Returns the new cursor and state. -/
def gapStep (text : List Char) (options : TokenListOptions) (index : Nat)
    (st : AbstractTokenList) : Nat × AbstractTokenList :=
  match text.get? index with
  | none => (index, st)
  | some c =>
    if options.newLinePattern c then
      -- consume a CRLF pair as one unit, else the lone character
      let index1 := if c = '\r' ∧ text.get? (index + 1) = some '\n' then index + 1 else index
      let st1 := add st { type := "LineBreak", value := options.lineEndings
                          range := (index, index1) }
      (index1 + 1, st1)
    else if isWhitespaceChar c options then
      let endIndex := wsRunEnd text options (index + 1)
      let run := String.mk (sliceChars text index endIndex)
      -- collapse to a single space unless this run is an indent
      let value :=
        if options.collapseWhitespace
            ∧ ¬(isLineBreakB st.items.getLast? = true) ∧ ¬(st.items = []) then
          " "
        else run
      (endIndex, add st { type := "Whitespace", value := value, range := (index, endIndex) })
    else (index, st)

/-- The `while (index < text.length)` loop of `buildTokenList`, with an
explicit fuel parameter (each iteration consumes one unit; on well-formed
input every iteration advances the cursor, so `text.length + 1` units
suffice, and running out of fuel models the non-terminating executions the
JavaScript loop has on malformed input). -/
def buildGo (tokens : List Token) (text : List Char) (options : TokenListOptions) :
    Nat → Nat → Nat → AbstractTokenList → AbstractTokenList
  | 0, _, _, st => st
  | fuel + 1, tokenIndex, index, st =>
    if index < text.length then
      match tokens.get? tokenIndex with
      | some token =>
        if token.range.1 = index then
          buildGo tokens text options fuel (tokenIndex + 1) token.range.2 (add st token)
        else
          let r := gapStep text options index st
          buildGo tokens text options fuel tokenIndex r.1 r.2
      | none =>
        let r := gapStep text options index st
        buildGo tokens text options fuel tokenIndex r.1 r.2
    else st

/-- `AbstractTokenList.from({ tokens, text, options })` with the options
already merged over `DEFAULT_OPTIONS`: run `buildTokenList` on a fresh
empty list. -/
def fromSource (tokens : List Token) (text : List Char) (options : TokenListOptions) :
    AbstractTokenList :=
  buildGo tokens text options (text.length + 1) 0 0 emptyList

/-- `isIndent(token)` for the member at position `i`: a whitespace token
whose predecessor is absent (the token is first) or is a line break. -/
def isIndentAt (l : List Token) (i : Nat) : Bool :=
  isWhitespaceB (l.get? i) && (decide (i = 0) || isLineBreakB (l.get? (i - 1)))

/-- The predecessor walk of `findPreviousIndent`, positioned at `j` (the
walk starts at the predecessor of the argument token): return the token at
the first indent position, stop with nothing at a line break, keep walking
otherwise.  At position `0` a failed indent test falls off the front of the
list and the walk returns nothing either way. -/
def fpiAux (l : List Token) : Nat → Option Token
  | 0 => if isIndentAt l 0 then l.get? 0 else none
  | j + 1 =>
    if isIndentAt l (j + 1) then l.get? (j + 1)
    else if isLineBreakB (l.get? (j + 1)) then none
    else fpiAux l j

/-- `findPreviousIndent(token)` for the member at position `i`. -/
def findPreviousIndent (l : List Token) (i : Nat) : Option Token :=
  match i with
  | 0 => none
  | i' + 1 => fpiAux l i'

/-- The predecessor walk of `findPreviousLineBreak`, positioned at `j`:
index of the nearest line-break member at or below `j`. -/
def fplbAux (l : List Token) : Nat → Option Nat
  | 0 => if isLineBreakB (l.get? 0) then some 0 else none
  | j + 1 => if isLineBreakB (l.get? (j + 1)) then some (j + 1) else fplbAux l j

/-- `findPreviousLineBreak(token)` for the member at position `i`, as the
position of the result. -/
def findPreviousLineBreakIdx (l : List Token) (i : Nat) : Option Nat :=
  match i with
  | 0 => none
  | i' + 1 => fplbAux l i'

/-- `findPreviousLineBreak(token)` returning the token itself. -/
def findPreviousLineBreak (l : List Token) (i : Nat) : Option Token :=
  (findPreviousLineBreakIdx l i).bind l.get?

/-- The forward walk of `OrderedSet.findNext(matcher, item)`, iterating
down the member suffix that starts at position `k`. -/
def findFromAux (p : Token → Bool) : List Token → Nat → Option Nat
  | [], _ => none
  | t :: rest, k => if p t then some k else findFromAux p rest (k + 1)

/-- `OrderedSet.findNext(matcher, item)` positioned at `k`: the first
position at or beyond `k` whose member matches. -/
def findFrom (l : List Token) (p : Token → Bool) (k : Nat) : Option Nat :=
  findFromAux p (l.drop k) k

/-- The matcher of `nextToken`: neither whitespace/line break nor comment. -/
def solidTok (t : Token) : Bool :=
  !(isWhitespaceOrLineBreakB (some t)) && !(isCommentTok t)

/-- `nextToken(startToken)` for the member at position `i`, as the position
of the result (the search begins after the start token). -/
def nextTokenIdx (l : List Token) (i : Nat) : Option Nat :=
  findFrom l solidTok (i + 1)

/-- The predecessor search of `OrderedSet.findPrevious(matcher, item)`,
positioned at `j`. -/
def findPrevAux (l : List Token) (p : Token → Bool) : Nat → Option Nat
  | 0 => if (l.get? 0).any p then some 0 else none
  | j + 1 => if (l.get? (j + 1)).any p then some (j + 1) else findPrevAux l p j

/-- `findPrevious(matcher, item)` for the member at position `i` (the
search begins before the start token). -/
def findPreviousIdx (l : List Token) (p : Token → Bool) (i : Nat) : Option Nat :=
  match i with
  | 0 => none
  | i' + 1 => findPrevAux l p i'

/-- `previousToken(startToken)` for the member at position `i`, as the
position of the result.  The matcher is the one written in the source:
`!isWhitespaceOrLineBreak(token) && !isComment(startToken)` — the comment
test reads the start token, not the walked token. -/
def previousTokenIdx (l : List Token) (i : Nat) : Option Nat :=
  match l.get? i with
  | some startToken =>
    findPreviousIdx l
      (fun token => !(isWhitespaceOrLineBreakB (some token)) && !(isCommentTok startToken)) i
  | none => none

/-- `previousToken(startToken)` returning the token itself. -/
def previousToken (l : List Token) (i : Nat) : Option Token :=
  (previousTokenIdx l i).bind l.get?

--------------------------------------------------------------------------
-- cstyle-token-list.js
--------------------------------------------------------------------------

/-- One record of the private `originalComments` map of
`CStyleTokenList`: `\x7b value: token.value, indent: previousToken.value \x7d`. -/
structure OriginalComment where
  value : String
  indent : String
deriving Repr, DecidableEq

/-- `CStyleTokenList` state: the inherited list plus the private
identity-keyed `originalComments` map, modelled as an association list in
insertion order. -/
structure CStyleTokenList extends AbstractTokenList where
  originalComments : List (Token × OriginalComment)

/-- `Map.get` on the identity-keyed side table. -/
def lookupOrig (table : List (Token × OriginalComment)) (t : Token) :
    Option OriginalComment :=
  (table.find? (fun e => e.1 = t)).map (fun e => e.2)

/-- One iteration of the snapshot loop in `CStyleTokenList.from`: if the
member at position `i` is a comment whose immediate predecessor is an
indent, record its original text and the indent text. -/
def snapshotStep (l : List Token) (acc : List (Token × OriginalComment)) (i : Nat) :
    List (Token × OriginalComment) :=
  match l.get? i, l.get? (i - 1) with
  | some tok, some prev =>
    if isCommentTok tok && decide (0 < i) && isIndentAt l (i - 1) then
      acc ++ [(tok, { value := tok.value, indent := prev.value })]
    else acc
  | _, _ => acc

/-- The whole snapshot loop of `CStyleTokenList.from` over a freshly built
member sequence. -/
def snapshotComments (l : List Token) : List (Token × OriginalComment) :=
  (List.range l.length).foldl (snapshotStep l) []

/-- `CStyleTokenList.from(\x7b tokens, text, options \x7d)`: the generic build
followed by the one-shot original-comment snapshot. -/
def cstyleFrom (tokens : List Token) (text : List Char) (options : TokenListOptions) :
    CStyleTokenList :=
  let base := fromSource tokens text options
  { toAbstractTokenList := base, originalComments := snapshotComments base.items }

/-- `getOriginalComment(token)`: `map.get(token) || ""` — the recorded
entry, or (modelled by `none`) the empty string when the token has none. -/
def getOriginalComment (st : CStyleTokenList) (t : Token) : Option OriginalComment :=
  lookupOrig st.originalComments t

/-- Modelled from the spec: `getOriginalCommentIndent(token)` is named in
the specification (sections 4.2 and 6) but its source is not under `src/`;
per the spec it answers the original indent captured for the token,
"returning an empty result for tokens absent from the table". -/
def getOriginalCommentIndent (st : CStyleTokenList) (t : Token) : String :=
  match lookupOrig st.originalComments t with
  | some e => e.indent
  | none => ""

/-- The inherited `add` on a C-style list: the `originalComments` field is
untouched by every mutation method. -/
def cAdd (st : CStyleTokenList) (part : Token) : CStyleTokenList :=
  { toAbstractTokenList := add st.toAbstractTokenList part
    originalComments := st.originalComments }

/-- The inherited `delete` on a C-style list. -/
def cDelete (st : CStyleTokenList) (part : Token) : CStyleTokenList :=
  { toAbstractTokenList := deleteTok st.toAbstractTokenList part
    originalComments := st.originalComments }

/-- The inherited `insertBefore` on a C-style list. -/
def cInsertBefore (st : CStyleTokenList) (part related : Token) : CStyleTokenList :=
  { toAbstractTokenList := insertBefore st.toAbstractTokenList part related
    originalComments := st.originalComments }

/-- The inherited `insertAfter` on a C-style list. -/
def cInsertAfter (st : CStyleTokenList) (part related : Token) : CStyleTokenList :=
  { toAbstractTokenList := insertAfter st.toAbstractTokenList part related
    originalComments := st.originalComments }

/-- `INDENT_DECREASE_CHARS.has(value)`. -/
def isDecreaseChar (v : String) : Bool := v == "\x7d" || v == "]" || v == ")"

/-- `isIndentDecreaser(token)` for the member at position `i`: a closing
bracket value, with no previous line break at all, or with `nextToken` of
the nearest previous line break being this very token (identity, i.e.
position, comparison). -/
def isIndentDecreaser (l : List Token) (i : Nat) : Bool :=
  match l.get? i with
  | none => false
  | some t =>
    if isDecreaseChar t.value then
      match findPreviousLineBreakIdx l i with
      | none => true
      | some j => nextTokenIdx l j == some i
    else false

--------------------------------------------------------------------------
-- Spec-side definitions (for comparison with the source behaviour)
--------------------------------------------------------------------------

/-- The first member after position `j` that is not a `Whitespace` token —
the "token immediately following ..., skipping only whitespace (not
comments)" of the indent-decreaser claim. -/
def nextSkipWhitespaceIdx (l : List Token) (j : Nat) : Option Nat :=
  findFrom l (fun t => !(isWhitespaceB (some t))) (j + 1)

/-- `isIndentDecreaser` as the claim words it: one of the closing brackets,
and first on its own line where only whitespace (not comments) is skipped
after the nearest previous line break. -/
def isIndentDecreaserClaim (l : List Token) (i : Nat) : Bool :=
  match l.get? i with
  | none => false
  | some t =>
    if isDecreaseChar t.value then
      match findPreviousLineBreakIdx l i with
      | none => true
      | some j => nextSkipWhitespaceIdx l j == some i
    else false

/-- Tokens that `nextToken`/`previousToken` are meant to skip:
whitespace, line breaks and comments. -/
def skippableTok (t : Token) : Bool :=
  isWhitespaceOrLineBreakB (some t) || isCommentTok t

/-- Position `i` of the text lies inside some scanner token's range. -/
def coversPos (tokens : List Token) (i : Nat) : Prop :=
  ∃ t ∈ tokens, t.range.1 ≤ i ∧ i < t.range.2

/-- The scanner tokens are sorted by range, with nonempty ranges lying
within the text: each range starts at or after `lo`, is nonempty, ends
within the text, and the next token starts at or after its end. -/
def tokensChain : Nat → List Token → Nat → Prop
  | _, [], _ => True
  | lo, t :: rest, len =>
    lo ≤ t.range.1 ∧ t.range.1 < t.range.2 ∧ t.range.2 ≤ len ∧
      tokensChain t.range.2 rest len

/-- The non-whitespace content of a character sequence. -/
def stripWs (s : List Char) : List Char := s.filter (fun c => !(jsWhitespace c))

/-- The concatenation of all list-member token values. -/
def concatValues (l : List Token) : List Char :=
  (l.map (fun t => t.value.data)).flatten

/-- The value of the member before position `i` (empty when there is
none); used to phrase the snapshot-table contents. -/
def prevValue (l : List Token) (i : Nat) : String :=
  ((l.get? (i - 1)).map Token.value).getD ""

/-- The final cursor position of the newline branch before its closing
`index++`: one further for a CRLF pair, the start position otherwise; also
the second range component of the synthesized `LineBreak` token. -/
def lineBreakEnd (text : List Char) (index : Nat) (c : Char) : Nat :=
  if c = '\r' ∧ text.get? (index + 1) = some '\n' then index + 1 else index

--------------------------------------------------------------------------
-- Concrete instances used by witnesses and counterexamples
--------------------------------------------------------------------------

/-- A plain identifier token. -/
def exA : Token := { type := "Identifier", value := "a", range := (0, 1) }

/-- A second plain identifier token. -/
def exB : Token := { type := "Identifier", value := "b", range := (2, 3) }

/-- A one-member list holding `exA`. -/
def exList1 : AbstractTokenList := add emptyList exA

/-- A member sequence `line comment, space, identifier`. -/
def c5List : List Token :=
  [{ type := "LineComment", value := "//x", range := (0, 3) },
   { type := "Whitespace", value := " ", range := (3, 4) },
   { type := "Identifier", value := "a", range := (4, 5) }]

/-- A member sequence `line break, block comment, closing brace`, as built
from the source text `"\n/*c*/\x7d"`. -/
def c4List : List Token :=
  [{ type := "LineBreak", value := "\n", range := (0, 0) },
   { type := "BlockComment", value := "/*c*/", range := (1, 6) },
   { type := "Punctuator", value := "\x7d", range := (6, 7) }]

/-- A member sequence `line break, indent, line comment`. -/
def c6List : List Token :=
  [{ type := "LineBreak", value := "\n", range := (0, 0) },
   { type := "Whitespace", value := "  ", range := (1, 3) },
   { type := "LineComment", value := "//hi", range := (3, 7) }]

/-- The scanner token of the C8 witness input `"\n  //hi"`. -/
def c8Comment : Token := { type := "LineComment", value := "//hi", range := (3, 7) }

/-- The scanner tokens of the C1 witness input `"a \nb"`. -/
def c1Tokens : List Token :=
  [{ type := "Identifier", value := "a", range := (0, 1) },
   { type := "Identifier", value := "b", range := (3, 4) }]

--------------------------------------------------------------------------
-- General helper lemmas
--------------------------------------------------------------------------

theorem drop_cons_of_get? {α : Type} (l : List α) (i : Nat) (c : α)
    (h : l.get? i = some c) : l.drop i = c :: l.drop (i + 1) := by
  have hi : i < l.length := (List.get?_eq_some.mp h).1
  rw [List.drop_eq_getElem_cons hi]
  rw [List.get?_eq_getElem?, List.getElem?_eq_getElem hi] at h
  simp only [Option.some.injEq] at h
  simp [h]

theorem drop_nil_of_get? {α : Type} (l : List α) (i : Nat)
    (h : l.get? i = none) : l.drop i = [] :=
  List.drop_eq_nil_of_le (List.get?_eq_none.mp h)

theorem add_items_of_fresh (st : AbstractTokenList) (part : Token)
    (h : part ∉ st.items) : (add st part).items = st.items ++ [part] := by
  simp [add, h]

--------------------------------------------------------------------------
-- wsRunEnd lemmas
--------------------------------------------------------------------------

theorem wsRunEnd_step (text : List Char) (options : TokenListOptions) (i : Nat) (c : Char)
    (h : text.get? i = some c) :
    wsRunEnd text options i
      = if isWhitespaceChar c options then wsRunEnd text options (i + 1) else i := by
  unfold wsRunEnd
  rw [drop_cons_of_get? text i c h]
  rfl

theorem wsRunEnd_stop (text : List Char) (options : TokenListOptions) (i : Nat)
    (h : text.get? i = none) : wsRunEnd text options i = i := by
  unfold wsRunEnd
  rw [drop_nil_of_get? text i h]
  rfl

theorem wsRunEnd_ge (text : List Char) (options : TokenListOptions) :
    ∀ i, i ≤ wsRunEnd text options i := by
  have H : ∀ d i, text.length - i ≤ d → i ≤ wsRunEnd text options i := by
    intro d
    induction d with
    | zero =>
      intro i hd
      cases h : text.get? i with
      | none => rw [wsRunEnd_stop text options i h]
      | some c =>
        have : i < text.length := (List.get?_eq_some.mp h).1
        omega
    | succ d ih =>
      intro i hd
      cases h : text.get? i with
      | none => rw [wsRunEnd_stop text options i h]
      | some c =>
        rw [wsRunEnd_step text options i c h]
        by_cases hw : isWhitespaceChar c options
        · have hi : i < text.length := (List.get?_eq_some.mp h).1
          have := ih (i + 1) (by omega)
          simp only [hw, if_true]
          omega
        · simp [hw]
  intro i
  exact H (text.length - i) i (Nat.le_refl _)

theorem wsRunEnd_all_ws (text : List Char) (options : TokenListOptions) :
    ∀ i j c, i ≤ j → j < wsRunEnd text options i → text.get? j = some c →
      isWhitespaceChar c options = true := by
  have H : ∀ d i j c, text.length - i ≤ d → i ≤ j → j < wsRunEnd text options i →
      text.get? j = some c → isWhitespaceChar c options = true := by
    intro d
    induction d with
    | zero =>
      intro i j c hd hij hlt hj
      cases h : text.get? i with
      | none => rw [wsRunEnd_stop text options i h] at hlt; omega
      | some c' =>
        have : i < text.length := (List.get?_eq_some.mp h).1
        omega
    | succ d ih =>
      intro i j c hd hij hlt hj
      cases h : text.get? i with
      | none => rw [wsRunEnd_stop text options i h] at hlt; omega
      | some c' =>
        rw [wsRunEnd_step text options i c' h] at hlt
        by_cases hw : isWhitespaceChar c' options
        · simp only [hw, if_true] at hlt
          have hi : i < text.length := (List.get?_eq_some.mp h).1
          rcases Nat.eq_or_lt_of_le hij with rfl | hgt
          · rw [h] at hj; cases hj; exact hw
          · exact ih (i + 1) j c (by omega) hgt hlt hj
        · simp [hw] at hlt; omega
  intro i j c hij hlt hj
  exact H (text.length - i) i j c (Nat.le_refl _) hij hlt hj

theorem wsRunEnd_max (text : List Char) (options : TokenListOptions) :
    ∀ i c, text.get? (wsRunEnd text options i) = some c →
      isWhitespaceChar c options = false := by
  have H : ∀ d i c, text.length - i ≤ d →
      text.get? (wsRunEnd text options i) = some c →
      isWhitespaceChar c options = false := by
    intro d
    induction d with
    | zero =>
      intro i c hd hj
      cases h : text.get? i with
      | none => rw [wsRunEnd_stop text options i h] at hj; rw [h] at hj; cases hj
      | some c' =>
        have : i < text.length := (List.get?_eq_some.mp h).1
        omega
    | succ d ih =>
      intro i c hd hj
      cases h : text.get? i with
      | none => rw [wsRunEnd_stop text options i h] at hj; rw [h] at hj; cases hj
      | some c' =>
        rw [wsRunEnd_step text options i c' h] at hj
        by_cases hw : isWhitespaceChar c' options
        · simp only [hw, if_true] at hj
          have hi : i < text.length := (List.get?_eq_some.mp h).1
          exact ih (i + 1) c (by omega) hj
        · rw [if_neg hw] at hj
          rw [h] at hj; cases hj
          simpa using hw
  intro i c hj
  exact H (text.length - i) i c (Nat.le_refl _) hj

--------------------------------------------------------------------------
-- Lemmas on the predecessor/successor walks
--------------------------------------------------------------------------

theorem bool_ne_true {b : Bool} (h : b = false) : ¬(b = true) := by simp [h]

theorem lb_not_ws (x : Option Token) (h : isLineBreakB x = true) :
    isWhitespaceB x = false := by
  cases x with
  | none => cases h
  | some t =>
    simp only [isLineBreakB, beq_iff_eq] at h
    simp [isWhitespaceB, h]

theorem lb_not_indent (l : List Token) (j : Nat)
    (h : isLineBreakB (l.get? j) = true) : isIndentAt l j = false := by
  unfold isIndentAt
  rw [lb_not_ws _ h]
  rfl

theorem fpiAux_some (l : List Token) : ∀ j t, fpiAux l j = some t →
    ∃ m, m ≤ j ∧ l.get? m = some t ∧ isIndentAt l m = true ∧
      ∀ k, m < k → k ≤ j → isIndentAt l k = false ∧ isLineBreakB (l.get? k) = false := by
  intro j
  induction j with
  | zero =>
    intro t h
    unfold fpiAux at h
    by_cases hi : isIndentAt l 0 = true
    · rw [if_pos hi] at h
      exact ⟨0, Nat.le_refl _, h, hi, fun k hk1 hk2 => by omega⟩
    · rw [if_neg hi] at h; cases h
  | succ j ih =>
    intro t h
    unfold fpiAux at h
    by_cases hi : isIndentAt l (j + 1) = true
    · rw [if_pos hi] at h
      exact ⟨j + 1, Nat.le_refl _, h, hi, fun k hk1 hk2 => by omega⟩
    · rw [if_neg hi] at h
      by_cases hl : isLineBreakB (l.get? (j + 1)) = true
      · rw [if_pos hl] at h; cases h
      · rw [if_neg hl] at h
        obtain ⟨m, hm, hg, hind, hbet⟩ := ih t h
        refine ⟨m, by omega, hg, hind, fun k hk1 hk2 => ?_⟩
        rcases Nat.lt_succ_iff_lt_or_eq.mp (Nat.lt_succ_of_le hk2) with hk | rfl
        · exact hbet k hk1 (by omega)
        · exact ⟨by simpa using hi, by simpa using hl⟩

theorem fpiAux_some_intro (l : List Token) : ∀ j m, m ≤ j →
    isIndentAt l m = true →
    (∀ k, m < k → k ≤ j →
      isIndentAt l k = false ∧ isLineBreakB (l.get? k) = false) →
    fpiAux l j = l.get? m := by
  intro j
  induction j with
  | zero =>
    intro m hm hind _
    interval_cases m
    unfold fpiAux
    rw [if_pos hind]
  | succ j ih =>
    intro m hm hind hbet
    unfold fpiAux
    rcases Nat.lt_succ_iff_lt_or_eq.mp (Nat.lt_succ_of_le hm) with hlt | rfl
    · obtain ⟨hni, hnl⟩ := hbet (j + 1) (by omega) (Nat.le_refl _)
      rw [if_neg (bool_ne_true hni), if_neg (bool_ne_true hnl)]
      exact ih m (by omega) hind (fun k h1 h2 => hbet k h1 (by omega))
    · rw [if_pos hind]

theorem fpiAux_none_of_lb (l : List Token) : ∀ j m, m ≤ j →
    isLineBreakB (l.get? m) = true →
    (∀ k, m < k → k ≤ j → isIndentAt l k = false) → fpiAux l j = none := by
  intro j
  induction j with
  | zero =>
    intro m hm hlb _
    interval_cases m
    unfold fpiAux
    rw [if_neg (bool_ne_true (lb_not_indent l 0 hlb))]
  | succ j ih =>
    intro m hm hlb hno
    unfold fpiAux
    rcases Nat.lt_succ_iff_lt_or_eq.mp (Nat.lt_succ_of_le hm) with hlt | rfl
    · have hni : isIndentAt l (j + 1) = false := hno (j + 1) (by omega) (Nat.le_refl _)
      rw [if_neg (bool_ne_true hni)]
      by_cases hl : isLineBreakB (l.get? (j + 1)) = true
      · rw [if_pos hl]
      · rw [if_neg hl]
        exact ih m (by omega) hlb (fun k h1 h2 => hno k h1 (by omega))
    · rw [if_neg (bool_ne_true (lb_not_indent l (j + 1) hlb)), if_pos hlb]

theorem fpiAux_none_off_front (l : List Token) : ∀ j,
    (∀ k, k ≤ j → isIndentAt l k = false) → fpiAux l j = none := by
  intro j
  induction j with
  | zero =>
    intro h
    unfold fpiAux
    rw [if_neg (bool_ne_true (h 0 (Nat.le_refl _)))]
  | succ j ih =>
    intro h
    unfold fpiAux
    rw [if_neg (bool_ne_true (h (j + 1) (Nat.le_refl _)))]
    split
    · rfl
    · exact ih (fun k hk => h k (by omega))

theorem fplbAux_none_iff (l : List Token) : ∀ j,
    fplbAux l j = none ↔ ∀ k, k ≤ j → isLineBreakB (l.get? k) = false := by
  intro j
  induction j with
  | zero =>
    unfold fplbAux
    constructor
    · intro h k hk
      interval_cases k
      by_cases hl : isLineBreakB (l.get? 0) = true
      · rw [if_pos hl] at h; cases h
      · simpa using hl
    · intro h
      rw [if_neg (bool_ne_true (h 0 (Nat.le_refl _)))]
  | succ j ih =>
    unfold fplbAux
    constructor
    · intro h k hk
      by_cases hl : isLineBreakB (l.get? (j + 1)) = true
      · rw [if_pos hl] at h; cases h
      · rw [if_neg hl] at h
        rcases Nat.lt_succ_iff_lt_or_eq.mp (Nat.lt_succ_of_le hk) with hlt | rfl
        · exact ih.mp h k (by omega)
        · simpa using hl
    · intro h
      rw [if_neg (bool_ne_true (h (j + 1) (Nat.le_refl _)))]
      exact ih.mpr (fun k hk => h k (by omega))

theorem fplbAux_some_elim (l : List Token) : ∀ j m, fplbAux l j = some m →
    m ≤ j ∧ isLineBreakB (l.get? m) = true ∧
      ∀ k, m < k → k ≤ j → isLineBreakB (l.get? k) = false := by
  intro j
  induction j with
  | zero =>
    intro m h
    unfold fplbAux at h
    by_cases hl : isLineBreakB (l.get? 0) = true
    · rw [if_pos hl] at h
      cases h
      exact ⟨Nat.le_refl _, hl, fun k h1 h2 => by omega⟩
    · rw [if_neg hl] at h; cases h
  | succ j ih =>
    intro m h
    unfold fplbAux at h
    by_cases hl : isLineBreakB (l.get? (j + 1)) = true
    · rw [if_pos hl] at h
      cases h
      exact ⟨Nat.le_refl _, hl, fun k h1 h2 => by omega⟩
    · rw [if_neg hl] at h
      obtain ⟨hm, hlb, hbet⟩ := ih m h
      refine ⟨by omega, hlb, fun k h1 h2 => ?_⟩
      rcases Nat.lt_succ_iff_lt_or_eq.mp (Nat.lt_succ_of_le h2) with hlt | rfl
      · exact hbet k h1 (by omega)
      · simpa using hl

theorem fplbAux_some_intro (l : List Token) : ∀ j m, m ≤ j →
    isLineBreakB (l.get? m) = true →
    (∀ k, m < k → k ≤ j → isLineBreakB (l.get? k) = false) →
    fplbAux l j = some m := by
  intro j
  induction j with
  | zero =>
    intro m hm hlb _
    interval_cases m
    unfold fplbAux
    rw [if_pos hlb]
  | succ j ih =>
    intro m hm hlb hno
    unfold fplbAux
    rcases Nat.lt_succ_iff_lt_or_eq.mp (Nat.lt_succ_of_le hm) with hlt | rfl
    · rw [if_neg (bool_ne_true (hno (j + 1) (by omega) (Nat.le_refl _)))]
      exact ih m (by omega) hlb (fun k h1 h2 => hno k h1 (by omega))
    · rw [if_pos hlb]

theorem findFrom_step (l : List Token) (p : Token → Bool) (k : Nat) (t : Token)
    (h : l.get? k = some t) :
    findFrom l p k = if p t then some k else findFrom l p (k + 1) := by
  unfold findFrom
  rw [drop_cons_of_get? l k t h]
  rfl

theorem findFrom_stop (l : List Token) (p : Token → Bool) (k : Nat)
    (h : l.get? k = none) : findFrom l p k = none := by
  unfold findFrom
  rw [drop_nil_of_get? l k h]
  rfl

theorem findFrom_some_elim (l : List Token) (p : Token → Bool) : ∀ k m,
    findFrom l p k = some m →
    k ≤ m ∧ (∃ t, l.get? m = some t ∧ p t = true) ∧
      ∀ j, k ≤ j → j < m → ∃ t, l.get? j = some t ∧ p t = false := by
  have H : ∀ d k m, l.length - k ≤ d → findFrom l p k = some m →
      k ≤ m ∧ (∃ t, l.get? m = some t ∧ p t = true) ∧
        ∀ j, k ≤ j → j < m → ∃ t, l.get? j = some t ∧ p t = false := by
    intro d
    induction d with
    | zero =>
      intro k m hd h
      cases hg : l.get? k with
      | none => rw [findFrom_stop l p k hg] at h; cases h
      | some t =>
        have : k < l.length := (List.get?_eq_some.mp hg).1
        omega
    | succ d ih =>
      intro k m hd h
      cases hg : l.get? k with
      | none => rw [findFrom_stop l p k hg] at h; cases h
      | some t =>
        rw [findFrom_step l p k t hg] at h
        by_cases hp : p t = true
        · rw [if_pos hp] at h
          cases h
          exact ⟨Nat.le_refl _, ⟨t, hg, hp⟩, fun j h1 h2 => by omega⟩
        · rw [if_neg hp] at h
          have hk : k < l.length := (List.get?_eq_some.mp hg).1
          obtain ⟨hm, hex, hbet⟩ := ih (k + 1) m (by omega) h
          refine ⟨by omega, hex, fun j h1 h2 => ?_⟩
          rcases Nat.eq_or_lt_of_le h1 with rfl | hgt
          · exact ⟨t, hg, by simpa using hp⟩
          · exact hbet j hgt h2
  intro k m
  exact H (l.length - k) k m (Nat.le_refl _)

theorem findFrom_some_intro (l : List Token) (p : Token → Bool) : ∀ n k m, m - k ≤ n →
    k ≤ m →
    (∀ j, k ≤ j → j < m → ∃ t, l.get? j = some t ∧ p t = false) →
    ∀ t, l.get? m = some t → p t = true → findFrom l p k = some m := by
  intro n
  induction n with
  | zero =>
    intro k m hd hk _ t hg hp
    have : k = m := by omega
    subst this
    rw [findFrom_step l p k t hg, if_pos hp]
  | succ n ih =>
    intro k m hd hk hbet t hg hp
    rcases Nat.eq_or_lt_of_le hk with rfl | hlt
    · rw [findFrom_step l p k t hg, if_pos hp]
    · obtain ⟨u, hu, hpu⟩ := hbet k (Nat.le_refl _) hlt
      rw [findFrom_step l p k u hu, if_neg (bool_ne_true hpu)]
      exact ih (k + 1) m (by omega) (by omega) (fun j h1 h2 => hbet j (by omega) h2) t hg hp

--------------------------------------------------------------------------
-- Membership/index invariants of the built list, and side-table lookups
--------------------------------------------------------------------------

theorem get?_inj_of_nodup (l : List Token) (h : l.Nodup) (i j : Nat) (a : Token)
    (hi : l.get? i = some a) (hj : l.get? j = some a) : i = j := by
  have hi' : i < l.length := (List.get?_eq_some.mp hi).1
  have hj' : j < l.length := (List.get?_eq_some.mp hj).1
  rw [List.get?_eq_getElem?, List.getElem?_eq_getElem hi'] at hi
  rw [List.get?_eq_getElem?, List.getElem?_eq_getElem hj'] at hj
  simp only [Option.some.injEq] at hi hj
  exact (List.Nodup.getElem_inj_iff h).mp (hi.trans hj.symm)

theorem lookupOrig_nil (t : Token) : lookupOrig [] t = none := rfl

theorem lookupOrig_append_of_none (a b : List (Token × OriginalComment)) (t : Token)
    (h : lookupOrig a t = none) : lookupOrig (a ++ b) t = lookupOrig b t := by
  unfold lookupOrig at *
  have hf : a.find? (fun e => e.1 = t) = none := Option.map_eq_none.mp h
  rw [List.find?_append, hf]
  rfl

theorem lookupOrig_append_of_some (a b : List (Token × OriginalComment)) (t : Token)
    (e : OriginalComment) (h : lookupOrig a t = some e) :
    lookupOrig (a ++ b) t = some e := by
  unfold lookupOrig at *
  obtain ⟨x, hx, hxe⟩ := Option.map_eq_some.mp h
  rw [List.find?_append, hx]
  simp [hxe]

theorem lookupOrig_singleton (k : Token) (e : OriginalComment) (t : Token) :
    lookupOrig [(k, e)] t = if k = t then some e else none := by
  unfold lookupOrig
  by_cases h : k = t <;> simp [List.find?, h]

theorem lookupOrig_eq_none (a : List (Token × OriginalComment)) (t : Token)
    (h : ∀ x ∈ a, x.1 ≠ t) : lookupOrig a t = none := by
  unfold lookupOrig
  rw [List.find?_eq_none.mpr (fun x hx => by simpa using h x hx)]
  rfl

theorem add_inv (st : AbstractTokenList) (part : Token)
    (h1 : st.items.Nodup)
    (h2 : ∀ s t, st.rangeStarts s = some t → t ∈ st.items ∧ t.range.1 = s) :
    (add st part).items.Nodup ∧
      ∀ s t, (add st part).rangeStarts s = some t →
        t ∈ (add st part).items ∧ t.range.1 = s := by
  unfold add
  by_cases hm : part ∈ st.items
  · rw [if_pos hm]
    exact ⟨h1, h2⟩
  · rw [if_neg hm]
    constructor
    · exact List.Nodup.append h1 (List.nodup_singleton part)
        (fun a ha hb => by simp at hb; subst hb; exact hm ha)
    · intro s t h
      dsimp only at h
      by_cases hs : s = part.range.1
      · rw [if_pos hs] at h
        cases h
        exact ⟨List.mem_append_right _ (List.mem_singleton_self part), hs.symm⟩
      · rw [if_neg hs] at h
        obtain ⟨ht, hr⟩ := h2 s t h
        exact ⟨List.mem_append_left _ ht, hr⟩

theorem gapStep_snd (text : List Char) (options : TokenListOptions) (index : Nat)
    (st : AbstractTokenList) :
    (gapStep text options index st).2 = st ∨
      ∃ tok, (gapStep text options index st).2 = add st tok := by
  unfold gapStep
  cases hg : text.get? index with
  | none => exact Or.inl rfl
  | some c =>
    dsimp only
    by_cases hnl : options.newLinePattern c = true
    · rw [if_pos hnl]
      exact Or.inr ⟨_, rfl⟩
    · rw [if_neg hnl]
      by_cases hws : isWhitespaceChar c options = true
      · rw [if_pos hws]
        exact Or.inr ⟨_, rfl⟩
      · rw [if_neg hws]
        exact Or.inl rfl

theorem buildGo_inv (tokens : List Token) (text : List Char)
    (options : TokenListOptions) : ∀ fuel tokenIndex index st,
    st.items.Nodup →
    (∀ s t, st.rangeStarts s = some t → t ∈ st.items ∧ t.range.1 = s) →
    (buildGo tokens text options fuel tokenIndex index st).items.Nodup ∧
      ∀ s t, (buildGo tokens text options fuel tokenIndex index st).rangeStarts s = some t →
        t ∈ (buildGo tokens text options fuel tokenIndex index st).items ∧ t.range.1 = s := by
  intro fuel
  induction fuel with
  | zero =>
    intro tokenIndex index st h1 h2
    exact ⟨h1, h2⟩
  | succ fuel ih =>
    intro tokenIndex index st h1 h2
    rw [buildGo]
    by_cases hidx : index < text.length
    · rw [if_pos hidx]
      cases hg : tokens.get? tokenIndex with
      | some token =>
        dsimp only
        by_cases hr : token.range.1 = index
        · rw [if_pos hr]
          obtain ⟨g1, g2⟩ := add_inv st token h1 h2
          exact ih (tokenIndex + 1) token.range.2 (add st token) g1 g2
        · rw [if_neg hr]
          rcases gapStep_snd text options index st with hsame | ⟨tok, hadd⟩
          · exact ih tokenIndex _ _ (by rw [hsame]; exact h1) (by rw [hsame]; exact h2)
          · obtain ⟨g1, g2⟩ := add_inv st tok h1 h2
            exact ih tokenIndex _ _ (by rw [hadd]; exact g1) (by rw [hadd]; exact g2)
      | none =>
        dsimp only
        rcases gapStep_snd text options index st with hsame | ⟨tok, hadd⟩
        · exact ih tokenIndex _ _ (by rw [hsame]; exact h1) (by rw [hsame]; exact h2)
        · obtain ⟨g1, g2⟩ := add_inv st tok h1 h2
          exact ih tokenIndex _ _ (by rw [hadd]; exact g1) (by rw [hadd]; exact g2)
    · rw [if_neg hidx]
      exact ⟨h1, h2⟩

theorem fromSource_inv (tokens : List Token) (text : List Char)
    (options : TokenListOptions) :
    (fromSource tokens text options).items.Nodup ∧
      ∀ s t, (fromSource tokens text options).rangeStarts s = some t →
        t ∈ (fromSource tokens text options).items ∧ t.range.1 = s :=
  buildGo_inv tokens text options (text.length + 1) 0 0 emptyList
    List.nodup_nil (fun _ _ h => nomatch h)

theorem snapshotStep_eq (l : List Token) (acc : List (Token × OriginalComment))
    (n : Nat) (tokN prevN : Token)
    (hgN : l.get? n = some tokN) (hgP : l.get? (n - 1) = some prevN) :
    snapshotStep l acc n
      = if isCommentTok tokN && decide (0 < n) && isIndentAt l (n - 1) then
          acc ++ [(tokN, { value := tokN.value, indent := prevN.value })]
        else acc := by
  unfold snapshotStep
  rw [hgN, hgP]

theorem snapshot_lookup (l : List Token) (hl : l.Nodup) (i : Nat) (tok : Token)
    (hg : l.get? i = some tok) :
    lookupOrig (snapshotComments l) tok
      = if isCommentTok tok && decide (0 < i) && isIndentAt l (i - 1) then
          some { value := tok.value, indent := prevValue l i }
        else none := by
  have hi : i < l.length := (List.get?_eq_some.mp hg).1
  have main : ∀ n, n ≤ l.length →
      lookupOrig ((List.range n).foldl (snapshotStep l) []) tok
        = if i < n ∧ (isCommentTok tok && decide (0 < i) && isIndentAt l (i - 1)) = true then
            some { value := tok.value, indent := prevValue l i }
          else none := by
    intro n
    induction n with
    | zero =>
      intro _
      rw [if_neg (by omega)]
      rfl
    | succ n ihn =>
      intro hn
      have hstep := ihn (by omega)
      rw [List.range_succ, List.foldl_append]
      simp only [List.foldl_cons, List.foldl_nil]
      have hnlen : n < l.length := by omega
      obtain ⟨tokN, hgN⟩ : ∃ u, l.get? n = some u := by
        rw [List.get?_eq_getElem?, List.getElem?_eq_getElem hnlen]
        exact ⟨_, rfl⟩
      have hgN1 : ∃ u, l.get? (n - 1) = some u := by
        have : n - 1 < l.length := by omega
        rw [List.get?_eq_getElem?, List.getElem?_eq_getElem this]
        exact ⟨_, rfl⟩
      obtain ⟨prevN, hgP⟩ := hgN1
      rw [snapshotStep_eq l _ n tokN prevN hgN hgP]
      by_cases hcondN : (isCommentTok tokN && decide (0 < n) && isIndentAt l (n - 1)) = true
      · rw [if_pos hcondN]
        by_cases hin : i = n
        · subst hin
          rw [hgN] at hg
          cases hg
          rw [if_neg (by omega)] at hstep
          rw [lookupOrig_append_of_none _ _ _ hstep, lookupOrig_singleton,
            if_pos rfl, if_pos ⟨by omega, hcondN⟩]
          have : prevValue l i = prevN.value := by
            unfold prevValue
            rw [hgP]
            rfl
          rw [this]
        · have hne : tokN ≠ tok := by
            intro he
            exact hin (get?_inj_of_nodup l hl i n tok hg (he ▸ hgN))
          by_cases hlt : i < n
          · by_cases hcond : (isCommentTok tok && decide (0 < i) && isIndentAt l (i - 1)) = true
            · rw [if_pos ⟨hlt, hcond⟩] at hstep
              rw [lookupOrig_append_of_some _ _ _ _ hstep, if_pos ⟨by omega, hcond⟩]
            · rw [if_neg (by tauto)] at hstep
              rw [lookupOrig_append_of_none _ _ _ hstep, lookupOrig_singleton,
                if_neg hne, if_neg (by tauto)]
          · rw [if_neg (by tauto)] at hstep
            rw [lookupOrig_append_of_none _ _ _ hstep, lookupOrig_singleton,
              if_neg hne, if_neg (by omega)]
      · rw [if_neg hcondN, hstep]
        by_cases hin : i = n
        · subst hin
          rw [hgN] at hg
          cases hg
          rw [if_neg (by omega), if_neg (by tauto)]
        · by_cases hlt : i < n
          · have : (i < n + 1) = (i < n) := by simp [Nat.lt_succ_iff]; omega
            by_cases hcond : (isCommentTok tok && decide (0 < i) && isIndentAt l (i - 1)) = true
            · rw [if_pos ⟨hlt, hcond⟩, if_pos ⟨by omega, hcond⟩]
            · rw [if_neg (by tauto), if_neg (by tauto)]
          · rw [if_neg (by tauto), if_neg (by omega)]
  have := main l.length (Nat.le_refl _)
  unfold snapshotComments
  rw [this, ]
  by_cases hcond : (isCommentTok tok && decide (0 < i) && isIndentAt l (i - 1)) = true
  · rw [if_pos ⟨hi, hcond⟩, if_pos hcond]
  · rw [if_neg (by tauto), if_neg hcond]

--------------------------------------------------------------------------
-- Lemmas for the construction round trip
--------------------------------------------------------------------------

theorem chain_mem : ∀ (lo : Nat) (l : List Token) (len : Nat),
    tokensChain lo l len → ∀ u ∈ l,
      lo ≤ u.range.1 ∧ u.range.1 < u.range.2 ∧ u.range.2 ≤ len := by
  intro lo l
  induction l generalizing lo with
  | nil => intro len _ u hu; cases hu
  | cons t rest ih =>
    intro len hc u hu
    obtain ⟨h1, h2, h3, h4⟩ := hc
    rcases List.mem_cons.mp hu with rfl | hmem
    · exact ⟨h1, h2, h3⟩
    · obtain ⟨g1, g2, g3⟩ := ih t.range.2 len h4 u hmem
      exact ⟨by omega, g2, g3⟩

theorem chain_raise (lo lo' : Nat) (t : Token) (rest : List Token) (len : Nat)
    (h : tokensChain lo (t :: rest) len) (h2 : lo' ≤ t.range.1) :
    tokensChain lo' (t :: rest) len :=
  ⟨h2, h.2.1, h.2.2.1, h.2.2.2⟩

theorem slice_append_drop (text : List Char) (a b : Nat) (hab : a ≤ b) :
    text.drop a = sliceChars text a b ++ text.drop b := by
  unfold sliceChars
  rw [show text.drop b = (text.drop a).drop (b - a) by
    rw [List.drop_drop, Nat.add_sub_cancel' hab]]
  rw [List.take_append_drop]

theorem stripWs_append (a b : List Char) :
    stripWs (a ++ b) = stripWs a ++ stripWs b := List.filter_append a b

theorem strip_drop_congr (text : List Char) : ∀ (d a b : Nat), b - a ≤ d → a ≤ b →
    (∀ j c, a ≤ j → j < b → text.get? j = some c → jsWhitespace c = true) →
    stripWs (text.drop a) = stripWs (text.drop b) := by
  intro d
  induction d with
  | zero =>
    intro a b hd hab _
    have : a = b := by omega
    rw [this]
  | succ d ih =>
    intro a b hd hab hws
    rcases Nat.eq_or_lt_of_le hab with rfl | hlt
    · rfl
    · cases hg : text.get? a with
      | none =>
        have ha : text.length ≤ a := List.get?_eq_none.mp hg
        rw [drop_nil_of_get? text a hg, List.drop_eq_nil_of_le (by omega)]
      | some c =>
        rw [drop_cons_of_get? text a c hg]
        have hcs : jsWhitespace c = true := hws a c (Nat.le_refl _) hlt hg
        have : stripWs (c :: text.drop (a + 1)) = stripWs (text.drop (a + 1)) := by
          unfold stripWs
          rw [List.filter_cons_of_neg (by simp [hcs])]
        rw [this]
        exact ih (a + 1) b (by omega) (by omega)
          (fun j cj h1 h2 hj => hws j cj (by omega) h2 hj)

theorem strip_slice_nil (text : List Char) (a b : Nat)
    (h : ∀ j c, a ≤ j → j < b → text.get? j = some c → jsWhitespace c = true) :
    stripWs (sliceChars text a b) = [] := by
  unfold stripWs sliceChars
  rw [List.filter_eq_nil_iff]
  intro x hx
  obtain ⟨k, hk⟩ := List.mem_iff_get?.mp hx
  rw [List.get?_eq_getElem?, List.getElem?_take] at hk
  by_cases hkb : k < b - a
  · rw [if_pos hkb, List.getElem?_drop] at hk
    have : text.get? (a + k) = some x := by rw [List.get?_eq_getElem?]; exact hk
    have := h (a + k) x (by omega) (by omega) this
    simp [this]
  · rw [if_neg hkb] at hk
    cases hk

theorem wsRunEnd_le (text : List Char) (options : TokenListOptions) :
    ∀ d i, text.length - i ≤ d → i ≤ text.length →
      wsRunEnd text options i ≤ text.length := by
  intro d
  induction d with
  | zero =>
    intro i hd hi
    cases hg : text.get? i with
    | none => rw [wsRunEnd_stop text options i hg]; exact hi
    | some c =>
      have : i < text.length := (List.get?_eq_some.mp hg).1
      omega
  | succ d ih =>
    intro i hd hi
    cases hg : text.get? i with
    | none => rw [wsRunEnd_stop text options i hg]; exact hi
    | some c =>
      rw [wsRunEnd_step text options i c hg]
      have hlt : i < text.length := (List.get?_eq_some.mp hg).1
      by_cases hw : isWhitespaceChar c options
      · rw [if_pos hw]
        exact ih (i + 1) (by omega) (by omega)
      · rw [if_neg hw]
        exact hi

theorem gapStep_nl (text : List Char) (options : TokenListOptions) (index : Nat)
    (st : AbstractTokenList) (c : Char)
    (hc : text.get? index = some c) (hnl : options.newLinePattern c = true) :
    gapStep text options index st
      = (lineBreakEnd text index c + 1,
         add st { type := "LineBreak", value := options.lineEndings
                  range := (index, lineBreakEnd text index c) }) := by
  unfold gapStep lineBreakEnd
  rw [hc]
  dsimp only
  rw [if_pos hnl]

theorem gapStep_ws (text : List Char) (options : TokenListOptions) (index : Nat)
    (st : AbstractTokenList) (c : Char)
    (hc : text.get? index = some c) (hws : isWhitespaceChar c options = true) :
    gapStep text options index st
      = (wsRunEnd text options (index + 1),
         add st { type := "Whitespace"
                  value := if options.collapseWhitespace
                      ∧ ¬(isLineBreakB st.items.getLast? = true) ∧ ¬(st.items = []) then " "
                    else String.mk (sliceChars text index (wsRunEnd text options (index + 1)))
                  range := (index, wsRunEnd text options (index + 1)) }) := by
  have hnl : options.newLinePattern c = false := by
    revert hws
    unfold isWhitespaceChar
    cases options.newLinePattern c <;> simp
  unfold gapStep
  rw [hc]
  dsimp only
  rw [if_neg (bool_ne_true hnl), if_pos hws]

theorem wschar_jsws (c : Char) (options : TokenListOptions)
    (h : isWhitespaceChar c options = true) : jsWhitespace c = true := by
  unfold isWhitespaceChar at h
  cases hj : jsWhitespace c
  · rw [hj] at h
    cases h
  · rfl

theorem take_succ_of_get? {α : Type} (l : List α) (i : Nat) (t : α)
    (h : l.get? i = some t) : l.take (i + 1) = l.take i ++ [t] := by
  rw [List.take_succ, List.get?_eq_getElem?] at *
  rw [h]
  rfl

theorem concatValues_cons (t : Token) (l : List Token) :
    concatValues (t :: l) = t.value.data ++ concatValues l := by
  unfold concatValues
  rw [List.map_cons, List.flatten_cons]

theorem gap_case_aux (tokens : List Token) (text : List Char)
    (hcover : ∀ i c, text.get? i = some c →
      (coversPos tokens i ↔ jsWhitespace c = false))
    (fuel tokenIndex index : Nat) (st : AbstractTokenList) (c : Char)
    (IH : ∀ tokenIndex index st, text.length - index < fuel →
      index ≤ text.length →
      tokensChain index (tokens.drop tokenIndex) text.length →
      (∀ t ∈ tokens.take tokenIndex, t.range.2 ≤ index) →
      (∀ t ∈ st.items, t.range.1 < index) →
      ∃ added,
        (buildGo tokens text DEFAULT_OPTIONS fuel tokenIndex index st).items
          = st.items ++ added ∧
        (tokens.drop tokenIndex).Sublist added ∧
        stripWs (concatValues added) = stripWs (text.drop index))
    (hc : text.get? index = some c)
    (hfuel : text.length - index < fuel + 1) (hlt : index < text.length)
    (hchain : tokensChain index (tokens.drop tokenIndex) text.length)
    (hdone : ∀ t ∈ tokens.take tokenIndex, t.range.2 ≤ index)
    (hprev : ∀ t ∈ st.items, t.range.1 < index)
    (hpend : ∀ v rest, tokens.drop tokenIndex = v :: rest → index < v.range.1) :
    ∃ added,
      (buildGo tokens text DEFAULT_OPTIONS fuel tokenIndex
          (gapStep text DEFAULT_OPTIONS index st).1
          (gapStep text DEFAULT_OPTIONS index st).2).items
        = st.items ++ added ∧
      (tokens.drop tokenIndex).Sublist added ∧
      stripWs (concatValues added) = stripWs (text.drop index) := by
  have hall : ∀ u ∈ tokens.drop tokenIndex, index < u.range.1 := by
    intro u hu
    cases hd : tokens.drop tokenIndex with
    | nil => rw [hd] at hu; cases hu
    | cons v rest =>
      rw [hd] at hu
      have hch := hchain
      rw [hd] at hch
      obtain ⟨g1, g2, g3, g4⟩ := hch
      rcases List.mem_cons.mp hu with rfl | hmem
      · exact hpend u rest hd
      · have h5 := chain_mem v.range.2 rest text.length g4 u hmem
        have hv := hpend v rest hd
        omega
  have hnc : ¬ coversPos tokens index := by
    rintro ⟨u, hu, hu1, hu2⟩
    rw [← List.take_append_drop tokenIndex tokens] at hu
    rcases List.mem_append.mp hu with h | h
    · have := hdone u h; omega
    · have := hall u h; omega
  have hcw : jsWhitespace c = true := by
    cases hjs : jsWhitespace c
    · exact absurd ((hcover index c hc).mpr hjs) hnc
    · rfl
  by_cases hnlc : DEFAULT_OPTIONS.newLinePattern c = true
  · -- line-break branch
    rw [gapStep_nl text DEFAULT_OPTIONS index st c hc hnlc]
    dsimp only
    have hlbe1 : index ≤ lineBreakEnd text index c := by
      unfold lineBreakEnd
      by_cases hcr : c = '\r' ∧ text.get? (index + 1) = some '\n'
      · rw [if_pos hcr]; omega
      · rw [if_neg hcr]
    have hlbe2 : lineBreakEnd text index c + 1 ≤ text.length := by
      unfold lineBreakEnd
      by_cases hcr : c = '\r' ∧ text.get? (index + 1) = some '\n'
      · rw [if_pos hcr]
        have := (List.get?_eq_some.mp hcr.2).1
        omega
      · rw [if_neg hcr]; omega
    have hconsws : ∀ j cj, index ≤ j → j < lineBreakEnd text index c + 1 →
        text.get? j = some cj → jsWhitespace cj = true := by
      intro j cj h1 h2 hj
      unfold lineBreakEnd at h2
      by_cases hcr : c = '\r' ∧ text.get? (index + 1) = some '\n'
      · rw [if_pos hcr] at h2
        rcases (by omega : j = index ∨ j = index + 1) with rfl | rfl
        · rw [hj] at hc; cases hc; exact hcw
        · rw [hcr.2] at hj; cases hj; decide
      · rw [if_neg hcr] at h2
        have hji : j = index := by omega
        subst hji
        rw [hj] at hc; cases hc; exact hcw
    have hstart2 : ∀ v rest, tokens.drop tokenIndex = v :: rest →
        lineBreakEnd text index c + 1 ≤ v.range.1 := by
      intro v rest hd
      have hv := hpend v rest hd
      unfold lineBreakEnd
      by_cases hcr : c = '\r' ∧ text.get? (index + 1) = some '\n'
      · rw [if_pos hcr]
        by_cases hv1 : v.range.1 = index + 1
        · exfalso
          have hvmem : v ∈ tokens :=
            List.mem_of_mem_drop (hd ▸ List.mem_cons_self v rest)
          have hvchain := chain_mem index (tokens.drop tokenIndex) text.length
            hchain v (hd ▸ List.mem_cons_self v rest)
          have hcov1 : coversPos tokens (index + 1) := ⟨v, hvmem, by omega, by omega⟩
          have hfls := (hcover (index + 1) '\n' hcr.2).mp hcov1
          exact absurd hfls (by decide)
        · omega
      · rw [if_neg hcr]; omega
    have hchain2 : tokensChain (lineBreakEnd text index c + 1)
        (tokens.drop tokenIndex) text.length := by
      cases hd : tokens.drop tokenIndex with
      | nil => trivial
      | cons v rest =>
        have hs := hstart2 v rest hd
        have hch := hchain
        rw [hd] at hch
        exact chain_raise index _ v rest _ hch hs
    have hfresh : ({ type := "LineBreak", value := DEFAULT_OPTIONS.lineEndings
                     range := (index, lineBreakEnd text index c) } : Token) ∉ st.items :=
      fun hmem => absurd (hprev _ hmem) (by simp)
    obtain ⟨added, haddeq, hsub, hstrip⟩ :=
      IH tokenIndex (lineBreakEnd text index c + 1)
        (add st { type := "LineBreak", value := DEFAULT_OPTIONS.lineEndings
                  range := (index, lineBreakEnd text index c) })
        (by omega) hlbe2 hchain2
        (fun t ht => by have := hdone t ht; omega)
        (by intro t ht
            rw [add_items_of_fresh st _ hfresh] at ht
            rcases List.mem_append.mp ht with h | h
            · have := hprev t h; omega
            · rw [List.mem_singleton] at h; subst h; simp; omega)
    refine ⟨{ type := "LineBreak", value := DEFAULT_OPTIONS.lineEndings
              range := (index, lineBreakEnd text index c) } :: added, ?_, ?_, ?_⟩
    · rw [haddeq, add_items_of_fresh st _ hfresh, List.append_assoc]
      rfl
    · exact List.Sublist.cons _ hsub
    · rw [concatValues_cons, stripWs_append, hstrip]
      have h1 : stripWs (DEFAULT_OPTIONS.lineEndings).data = [] := by decide
      rw [h1, List.nil_append]
      exact (strip_drop_congr text (lineBreakEnd text index c + 1 - index) index
        (lineBreakEnd text index c + 1) (by omega) (by omega) hconsws).symm
  · -- whitespace branch
    have hwsc : isWhitespaceChar c DEFAULT_OPTIONS = true := by
      unfold isWhitespaceChar
      rw [hcw]
      simp only [Bool.true_and]
      cases hcase : DEFAULT_OPTIONS.newLinePattern c
      · rfl
      · exact absurd hcase hnlc
    rw [gapStep_ws text DEFAULT_OPTIONS index st c hc hwsc]
    dsimp only
    have he1 : index + 1 ≤ wsRunEnd text DEFAULT_OPTIONS (index + 1) :=
      wsRunEnd_ge text DEFAULT_OPTIONS (index + 1)
    have he2 : wsRunEnd text DEFAULT_OPTIONS (index + 1) ≤ text.length :=
      wsRunEnd_le text DEFAULT_OPTIONS text.length (index + 1) (by omega) (by omega)
    have hrun : ∀ j cj, index ≤ j → j < wsRunEnd text DEFAULT_OPTIONS (index + 1) →
        text.get? j = some cj → jsWhitespace cj = true := by
      intro j cj h1 h2 hj
      rcases Nat.eq_or_lt_of_le h1 with rfl | hgt
      · rw [hj] at hc; cases hc; exact hcw
      · exact wschar_jsws cj DEFAULT_OPTIONS
          (wsRunEnd_all_ws text DEFAULT_OPTIONS (index + 1) j cj hgt h2 hj)
    have hstart2 : ∀ v rest, tokens.drop tokenIndex = v :: rest →
        wsRunEnd text DEFAULT_OPTIONS (index + 1) ≤ v.range.1 := by
      intro v rest hd
      by_contra hlt2
      push_neg at hlt2
      have hv := hpend v rest hd
      have hvmem : v ∈ tokens :=
        List.mem_of_mem_drop (hd ▸ List.mem_cons_self v rest)
      have hvchain := chain_mem index (tokens.drop tokenIndex) text.length
        hchain v (hd ▸ List.mem_cons_self v rest)
      obtain ⟨cv, hcv⟩ : ∃ cv, text.get? v.range.1 = some cv := by
        have hvl : v.range.1 < text.length := by omega
        rw [List.get?_eq_getElem?, List.getElem?_eq_getElem hvl]
        exact ⟨_, rfl⟩
      have hcovv : coversPos tokens v.range.1 :=
        ⟨v, hvmem, Nat.le_refl _, by omega⟩
      have hfalse := (hcover v.range.1 cv hcv).mp hcovv
      have htrue := hrun v.range.1 cv (by omega) hlt2 hcv
      rw [htrue] at hfalse
      cases hfalse
    have hchain2 : tokensChain (wsRunEnd text DEFAULT_OPTIONS (index + 1))
        (tokens.drop tokenIndex) text.length := by
      cases hd : tokens.drop tokenIndex with
      | nil => trivial
      | cons v rest =>
        have hs := hstart2 v rest hd
        have hch := hchain
        rw [hd] at hch
        exact chain_raise index _ v rest _ hch hs
    have hfresh : ({ type := "Whitespace"
                     value := if DEFAULT_OPTIONS.collapseWhitespace
                         ∧ ¬(isLineBreakB st.items.getLast? = true) ∧ ¬(st.items = []) then " "
                       else String.mk (sliceChars text index
                         (wsRunEnd text DEFAULT_OPTIONS (index + 1)))
                     range := (index, wsRunEnd text DEFAULT_OPTIONS (index + 1)) } : Token)
        ∉ st.items := fun hmem => absurd (hprev _ hmem) (by simp)
    obtain ⟨added, haddeq, hsub, hstrip⟩ :=
      IH tokenIndex (wsRunEnd text DEFAULT_OPTIONS (index + 1))
        (add st { type := "Whitespace"
                  value := if DEFAULT_OPTIONS.collapseWhitespace
                      ∧ ¬(isLineBreakB st.items.getLast? = true) ∧ ¬(st.items = []) then " "
                    else String.mk (sliceChars text index
                      (wsRunEnd text DEFAULT_OPTIONS (index + 1)))
                  range := (index, wsRunEnd text DEFAULT_OPTIONS (index + 1)) })
        (by omega) he2 hchain2
        (fun t ht => by have := hdone t ht; omega)
        (by intro t ht
            rw [add_items_of_fresh st _ hfresh] at ht
            rcases List.mem_append.mp ht with h | h
            · have := hprev t h; omega
            · rw [List.mem_singleton] at h; subst h; simp; omega)
    refine ⟨{ type := "Whitespace"
              value := if DEFAULT_OPTIONS.collapseWhitespace
                  ∧ ¬(isLineBreakB st.items.getLast? = true) ∧ ¬(st.items = []) then " "
                else String.mk (sliceChars text index
                  (wsRunEnd text DEFAULT_OPTIONS (index + 1)))
              range := (index, wsRunEnd text DEFAULT_OPTIONS (index + 1)) } :: added,
      ?_, ?_, ?_⟩
    · rw [haddeq, add_items_of_fresh st _ hfresh, List.append_assoc]
      rfl
    · exact List.Sublist.cons _ hsub
    · rw [concatValues_cons, stripWs_append, hstrip]
      have hvstrip : stripWs (if DEFAULT_OPTIONS.collapseWhitespace
          ∧ ¬(isLineBreakB st.items.getLast? = true) ∧ ¬(st.items = []) then " "
        else String.mk (sliceChars text index
          (wsRunEnd text DEFAULT_OPTIONS (index + 1)))).data = [] := by
        by_cases hcond : DEFAULT_OPTIONS.collapseWhitespace
            ∧ ¬(isLineBreakB st.items.getLast? = true) ∧ ¬(st.items = [])
        · rw [if_pos hcond]; decide
        · rw [if_neg hcond]
          exact strip_slice_nil text index _ (fun j cj h1 h2 hj => hrun j cj h1 h2 hj)
      rw [hvstrip, List.nil_append]
      exact (strip_drop_congr text (wsRunEnd text DEFAULT_OPTIONS (index + 1) - index)
        index (wsRunEnd text DEFAULT_OPTIONS (index + 1)) (by omega) (by omega) hrun).symm

theorem buildGo_round (tokens : List Token) (text : List Char)
    (hvalues : ∀ t ∈ tokens, t.value.data = sliceChars text t.range.1 t.range.2)
    (hcover : ∀ i c, text.get? i = some c →
      (coversPos tokens i ↔ jsWhitespace c = false)) :
    ∀ fuel tokenIndex index st,
    text.length - index < fuel →
    index ≤ text.length →
    tokensChain index (tokens.drop tokenIndex) text.length →
    (∀ t ∈ tokens.take tokenIndex, t.range.2 ≤ index) →
    (∀ t ∈ st.items, t.range.1 < index) →
    ∃ added,
      (buildGo tokens text DEFAULT_OPTIONS fuel tokenIndex index st).items
        = st.items ++ added ∧
      (tokens.drop tokenIndex).Sublist added ∧
      stripWs (concatValues added) = stripWs (text.drop index) := by
  intro fuel
  induction fuel with
  | zero =>
    intro tokenIndex index st hfuel _ _ _ _
    exact absurd hfuel (by omega)
  | succ fuel ih =>
    intro tokenIndex index st hfuel hidx hchain hdone hprev
    rw [buildGo]
    by_cases hlt : index < text.length
    · rw [if_pos hlt]
      obtain ⟨c, hc⟩ : ∃ c, text.get? index = some c := by
        rw [List.get?_eq_getElem?, List.getElem?_eq_getElem hlt]
        exact ⟨_, rfl⟩
      cases hg : tokens.get? tokenIndex with
      | some token =>
        dsimp only
        by_cases hr : token.range.1 = index
        · rw [if_pos hr]
          have hdropc : tokens.drop tokenIndex = token :: tokens.drop (tokenIndex + 1) :=
            drop_cons_of_get? tokens tokenIndex token hg
          have hch := hchain
          rw [hdropc] at hch
          obtain ⟨hc1, hc2, hc3, hc4⟩ := hch
          have hfresh : token ∉ st.items := fun hmem => by
            have := hprev token hmem
            omega
          have hadditems : (add st token).items = st.items ++ [token] :=
            add_items_of_fresh st token hfresh
          obtain ⟨added, haddeq, hsub, hstrip⟩ :=
            ih (tokenIndex + 1) token.range.2 (add st token)
              (by omega) hc3 hc4
              (by intro t ht
                  rw [take_succ_of_get? tokens tokenIndex token hg] at ht
                  rcases List.mem_append.mp ht with h | h
                  · have := hdone t h; omega
                  · rw [List.mem_singleton] at h; subst h; omega)
              (by intro t ht
                  rw [hadditems] at ht
                  rcases List.mem_append.mp ht with h | h
                  · have := hprev t h; omega
                  · rw [List.mem_singleton] at h; subst h; omega)
          refine ⟨token :: added, ?_, ?_, ?_⟩
          · rw [haddeq, hadditems, List.append_assoc]
            rfl
          · rw [hdropc]
            exact hsub.cons₂ token
          · rw [concatValues_cons, stripWs_append,
              hvalues token (List.get?_mem hg), hstrip, ← hr,
              slice_append_drop text token.range.1 token.range.2 (Nat.le_of_lt hc2),
              stripWs_append]
        · rw [if_neg hr]
          have hpend : ∀ v rest, tokens.drop tokenIndex = v :: rest →
              index < v.range.1 := by
            intro v rest hd
            have hdropc : tokens.drop tokenIndex = token :: tokens.drop (tokenIndex + 1) :=
              drop_cons_of_get? tokens tokenIndex token hg
            rw [hdropc] at hd
            cases hd
            have hch := hchain
            rw [hdropc] at hch
            obtain ⟨g1, -, -, -⟩ := hch
            omega
          exact gap_case_aux tokens text hcover fuel tokenIndex index st c ih hc
            hfuel hlt hchain hdone hprev hpend
      | none =>
        dsimp only
        have hpend : ∀ v rest, tokens.drop tokenIndex = v :: rest →
            index < v.range.1 := by
          intro v rest hd
          have : tokens.drop tokenIndex = [] :=
            List.drop_eq_nil_of_le (List.get?_eq_none.mp hg)
          rw [this] at hd
          cases hd
        exact gap_case_aux tokens text hcover fuel tokenIndex index st c ih hc
          hfuel hlt hchain hdone hprev hpend
    · rw [if_neg hlt]
      have hpendnil : tokens.drop tokenIndex = [] := by
        cases hd : tokens.drop tokenIndex with
        | nil => rfl
        | cons u rest =>
          have hch := hchain
          rw [hd] at hch
          obtain ⟨h1, h2, h3, -⟩ := hch
          omega
      refine ⟨[], by simp, by rw [hpendnil], ?_⟩
      rw [List.drop_eq_nil_of_le (by omega)]
      rfl

--------------------------------------------------------------------------
-- Claim theorems
--------------------------------------------------------------------------

/-- C10: the classification predicates are not uniformly total over an
absent token: `isWhitespace`, `isLineBreak` and `isWhitespaceOrLineBreak`
return `false` on an absent token, whereas `isComment` dereferences the
token unconditionally — it errors (`none` here) on an absent token and is
defined, reading `type.endsWith("Comment")`, exactly on present tokens. -/
theorem C10_predicate_totality :
    isWhitespaceB none = false ∧ isLineBreakB none = false ∧
    isWhitespaceOrLineBreakB none = false ∧ isCommentB none = none ∧
    (∀ t : Token, isCommentB (some t) = some (isCommentTok t)) :=
  ⟨rfl, rfl, rfl, rfl, fun _ => rfl⟩

/-- C7: every mutation keeps the range-start index consistent — after a
successful `add`, `insertBefore` or `insertAfter` of a ranged token,
`getByRangeStart(token.range[0])` returns that token, and after a
successful `delete` of the token it returns nothing. -/
theorem C7_rangeStart_index_consistency (st : AbstractTokenList) (part related : Token) :
    (part ∉ st.items → getByRangeStart (add st part) part.range.1 = some part) ∧
    (part ∉ st.items → related ∈ st.items →
      getByRangeStart (insertBefore st part related) part.range.1 = some part) ∧
    (part ∉ st.items → related ∈ st.items →
      getByRangeStart (insertAfter st part related) part.range.1 = some part) ∧
    (part ∈ st.items → getByRangeStart (deleteTok st part) part.range.1 = none) := by
  refine ⟨fun h => ?_, fun h h2 => ?_, fun h h2 => ?_, fun h => ?_⟩
  · simp [getByRangeStart, add, h]
  · simp [getByRangeStart, insertBefore, h, h2]
  · simp [getByRangeStart, insertAfter, h, h2]
  · simp [getByRangeStart, deleteTok, h]

/-- Witness for C7 on a concrete one-member list. -/
theorem C7_witness :
    getByRangeStart (add exList1 exB) exB.range.1 = some exB ∧
    getByRangeStart (insertBefore exList1 exB exA) exB.range.1 = some exB ∧
    getByRangeStart (insertAfter exList1 exB exA) exB.range.1 = some exB ∧
    getByRangeStart (deleteTok exList1 exA) exA.range.1 = none := by
  have h1 := C7_rangeStart_index_consistency exList1 exB exA
  have h2 := C7_rangeStart_index_consistency exList1 exA exA
  exact ⟨h1.1 (by decide), h1.2.1 (by decide) (by decide),
         h1.2.2.1 (by decide) (by decide), h2.2.2.2 (by decide)⟩

/-- C3: a line terminator at the cursor that does not coincide with a
scanner token (the construction loop reaches `gapStep` exactly then)
produces exactly one synthesized `LineBreak` token whose value is the
configured `lineEndings` string whatever the source characters were, a
CRLF pair being consumed as one unit; the cursor then advances past all
consumed characters — two for CRLF, one otherwise. -/
theorem C3_linebreak_synthesis (text : List Char) (options : TokenListOptions)
    (index : Nat) (st : AbstractTokenList) (c : Char)
    (hc : text.get? index = some c)
    (hnl : options.newLinePattern c = true)
    (hfresh : ({ type := "LineBreak", value := options.lineEndings
                 range := (index, lineBreakEnd text index c) } : Token) ∉ st.items) :
    (gapStep text options index st).2.items = st.items ++
      [{ type := "LineBreak", value := options.lineEndings
         range := (index, lineBreakEnd text index c) }] ∧
    (gapStep text options index st).1 = lineBreakEnd text index c + 1 ∧
    (c = '\r' ∧ text.get? (index + 1) = some '\n' →
      (gapStep text options index st).1 = index + 2) ∧
    (¬(c = '\r' ∧ text.get? (index + 1) = some '\n') →
      (gapStep text options index st).1 = index + 1) := by
  by_cases hcr : c = '\r' ∧ text.get? (index + 1) = some '\n'
  · have hend : lineBreakEnd text index c = index + 1 := by
      unfold lineBreakEnd; rw [if_pos hcr]
    rw [hend] at hfresh
    have hgap : gapStep text options index st
        = (index + 2, add st { type := "LineBreak", value := options.lineEndings
                               range := (index, index + 1) }) := by
      unfold gapStep
      rw [hc]
      simp only [hnl, if_true, if_pos hcr]
    rw [hgap, hend]
    refine ⟨?_, rfl, fun _ => rfl, fun hn => absurd hcr hn⟩
    exact add_items_of_fresh st _ hfresh
  · have hend : lineBreakEnd text index c = index := by
      unfold lineBreakEnd; rw [if_neg hcr]
    rw [hend] at hfresh
    have hgap : gapStep text options index st
        = (index + 1, add st { type := "LineBreak", value := options.lineEndings
                               range := (index, index) }) := by
      unfold gapStep
      rw [hc]
      simp only [hnl, if_true, if_neg hcr]
    rw [hgap, hend]
    refine ⟨?_, rfl, fun hy => absurd hy hcr, fun _ => rfl⟩
    exact add_items_of_fresh st _ hfresh

/-- Witness for C3 on the source text `"\r\nx"`: the CRLF pair yields one
`LineBreak` token and the cursor lands on position 2. -/
theorem C3_witness :
    (gapStep "\r\nx".data DEFAULT_OPTIONS 0 emptyList).2.items
      = [{ type := "LineBreak", value := "\n", range := (0, 1) }] ∧
    (gapStep "\r\nx".data DEFAULT_OPTIONS 0 emptyList).1 = 2 := by
  have h := C3_linebreak_synthesis "\r\nx".data DEFAULT_OPTIONS 0 emptyList '\r'
      (by rfl) (by decide) (by decide)
  exact ⟨h.1.trans (by decide), h.2.2.1 (by decide)⟩

/-- C2: a maximal run of non-newline whitespace at the cursor that does not
coincide with a scanner token (the construction loop reaches `gapStep`
exactly then) becomes exactly one synthesized `Whitespace` token spanning
the run; its value is a single space precisely when collapsing is enabled,
the list is non-empty and the preceding member is not a `LineBreak`, and
the run text verbatim otherwise.  The final two conjuncts state maximality
of the run the token spans. -/
theorem C2_whitespace_synthesis (text : List Char) (options : TokenListOptions)
    (index : Nat) (st : AbstractTokenList) (c : Char)
    (hc : text.get? index = some c)
    (hws : isWhitespaceChar c options = true)
    (hfresh : ({ type := "Whitespace"
                 value := if options.collapseWhitespace
                     ∧ ¬(isLineBreakB st.items.getLast? = true) ∧ ¬(st.items = []) then " "
                   else String.mk (sliceChars text index (wsRunEnd text options (index + 1)))
                 range := (index, wsRunEnd text options (index + 1)) } : Token) ∉ st.items) :
    (gapStep text options index st).1 = wsRunEnd text options (index + 1) ∧
    (gapStep text options index st).2.items = st.items ++
      [{ type := "Whitespace"
         value := if options.collapseWhitespace
             ∧ ¬(isLineBreakB st.items.getLast? = true) ∧ ¬(st.items = []) then " "
           else String.mk (sliceChars text index (wsRunEnd text options (index + 1)))
         range := (index, wsRunEnd text options (index + 1)) }] ∧
    (∀ j cj, index ≤ j → j < wsRunEnd text options (index + 1) →
      text.get? j = some cj → isWhitespaceChar cj options = true) ∧
    (∀ ce, text.get? (wsRunEnd text options (index + 1)) = some ce →
      isWhitespaceChar ce options = false) := by
  have hnl : options.newLinePattern c = false := by
    revert hws
    unfold isWhitespaceChar
    cases options.newLinePattern c <;> simp
  have hgap : gapStep text options index st
      = (wsRunEnd text options (index + 1),
         add st { type := "Whitespace"
                  value := if options.collapseWhitespace
                      ∧ ¬(isLineBreakB st.items.getLast? = true) ∧ ¬(st.items = []) then " "
                    else String.mk (sliceChars text index (wsRunEnd text options (index + 1)))
                  range := (index, wsRunEnd text options (index + 1)) }) := by
    unfold gapStep
    rw [hc]
    simp only [hnl, Bool.false_eq_true, if_false, hws, if_true]
  refine ⟨by rw [hgap], by rw [hgap]; exact add_items_of_fresh st _ hfresh, ?_, ?_⟩
  · intro j cj hij hlt hj
    rcases Nat.eq_or_lt_of_le hij with rfl | hgt
    · rw [hc] at hj; cases hj; exact hws
    · exact wsRunEnd_all_ws text options (index + 1) j cj hgt hlt hj
  · exact wsRunEnd_max text options (index + 1)

/-- Witness for C2 on the source text `"  x"` scanned from an empty list:
the two-space indent run becomes one verbatim `Whitespace` token spanning
positions 0 to 2. -/
theorem C2_witness :
    (gapStep "  x".data DEFAULT_OPTIONS 0 emptyList).1 = 2 ∧
    (gapStep "  x".data DEFAULT_OPTIONS 0 emptyList).2.items
      = [{ type := "Whitespace", value := "  ", range := (0, 2) }] := by
  have h := C2_whitespace_synthesis "  x".data DEFAULT_OPTIONS 0 emptyList ' '
      (by rfl) (by decide) (by decide)
  exact ⟨h.1.trans (by decide), h.2.1.trans (by decide)⟩

/-- C1: for an input pair whose scanner tokens are sorted by range with
valid in-text ranges, carry the text at their ranges as their values, and
cover exactly the non-whitespace positions of the text, the built list
round-trips: the concatenation of all member values (synthesized tokens
included) has the same non-whitespace content as the original text, and
the scanner tokens appear as members unchanged and in their original
relative order (they form a sublist of the member sequence). -/
theorem C1_round_trip (tokens : List Token) (text : List Char)
    (hchain : tokensChain 0 tokens text.length)
    (hvalues : ∀ t ∈ tokens, t.value.data = sliceChars text t.range.1 t.range.2)
    (hcover : ∀ i c, text.get? i = some c →
      (coversPos tokens i ↔ jsWhitespace c = false)) :
    stripWs (concatValues (fromSource tokens text DEFAULT_OPTIONS).items)
      = stripWs text ∧
    tokens.Sublist (fromSource tokens text DEFAULT_OPTIONS).items := by
  obtain ⟨added, haddeq, hsub, hstrip⟩ :=
    buildGo_round tokens text hvalues hcover (text.length + 1) 0 0 emptyList
      (by omega) (by omega)
      (by rw [List.drop_zero]; exact hchain)
      (fun t ht => absurd ht (by simp))
      (fun t ht => absurd ht (by simp [emptyList]))
  have hitems : (fromSource tokens text DEFAULT_OPTIONS).items = added := by
    unfold fromSource
    rw [haddeq]
    exact List.nil_append added
  rw [List.drop_zero] at hsub
  rw [List.drop_zero] at hstrip
  rw [hitems]
  exact ⟨hstrip, hsub⟩

/-- Witness for C1 on the one-token input `"a"`. -/
theorem C1_witness :
    stripWs (concatValues (fromSource [exA] "a".data DEFAULT_OPTIONS).items)
      = stripWs "a".data ∧
    List.Sublist [exA] (fromSource [exA] "a".data DEFAULT_OPTIONS).items := by
  refine C1_round_trip [exA] "a".data ⟨by decide, by decide, by decide, trivial⟩ ?_ ?_
  · intro t ht
    rw [List.mem_singleton] at ht
    subst ht
    decide
  · intro i c hgi
    have hi : i < 1 := (List.get?_eq_some.mp hgi).1
    have hz : i = 0 := by omega
    subst hz
    rw [show "a".data.get? 0 = some 'a' from rfl] at hgi
    cases hgi
    exact iff_of_true ⟨exA, List.mem_singleton_self exA, by decide, by decide⟩ (by decide)

/-- C8: immediately after C-style construction the identity-keyed side
table holds, for every member, an entry exactly when that member is a
comment token whose immediate predecessor is an indent, the entry
capturing the comment text and the indent text; and no list operation ever
touches the table afterward. -/
theorem C8_original_comment_snapshot :
    (∀ tokens text options i tok,
      (cstyleFrom tokens text options).items.get? i = some tok →
      lookupOrig (cstyleFrom tokens text options).originalComments tok
        = if isCommentTok tok && decide (0 < i)
              && isIndentAt (cstyleFrom tokens text options).items (i - 1) then
            some { value := tok.value
                   indent := prevValue (cstyleFrom tokens text options).items i }
          else none) ∧
    (∀ (st : CStyleTokenList) (part related : Token),
      (cAdd st part).originalComments = st.originalComments ∧
      (cDelete st part).originalComments = st.originalComments ∧
      (cInsertBefore st part related).originalComments = st.originalComments ∧
      (cInsertAfter st part related).originalComments = st.originalComments) := by
  constructor
  · intro tokens text options i tok hg
    exact snapshot_lookup (fromSource tokens text options).items
      (fromSource_inv tokens text options).1 i tok hg
  · intro st part related
    exact ⟨rfl, rfl, rfl, rfl⟩

/-- Witness for C8 on the input `"\n  //hi"` with its line-comment scanner
token: the built list is `line break, indent, comment`, and the table maps
the comment to its text and the two-space indent. -/
theorem C8_witness :
    lookupOrig (cstyleFrom [c8Comment] "\n  //hi".data DEFAULT_OPTIONS).originalComments
        c8Comment
      = some { value := "//hi", indent := "  " } := by
  have h := C8_original_comment_snapshot.1 [c8Comment] "\n  //hi".data DEFAULT_OPTIONS
      2 c8Comment (by decide)
  exact h.trans (by decide)

/-- C9: the lookup methods return explicit not-found values rather than
failing: `getOriginalComment` (and the spec-modelled
`getOriginalCommentIndent`) return the empty result on every token absent
from the side table, `findPreviousLineBreak`/`findPreviousIndent` return
nothing when no line break (respectively no indent) precedes the start
token, and `getByRangeStart` returns nothing when no member starts at the
offset. -/
theorem C9_lookup_never_fails :
    (∀ (st : CStyleTokenList) (t : Token),
      (∀ e ∈ st.originalComments, e.1 ≠ t) →
      getOriginalComment st t = none ∧ getOriginalCommentIndent st t = "") ∧
    (∀ (l : List Token) (i : Nat),
      (∀ j, j < i → isLineBreakB (l.get? j) = false) →
      findPreviousLineBreak l i = none) ∧
    (∀ (l : List Token) (i : Nat),
      (∀ j, j < i → isIndentAt l j = false) →
      findPreviousIndent l i = none) ∧
    (∀ tokens text options s,
      (∀ t ∈ (cstyleFrom tokens text options).items, t.range.1 ≠ s) →
      getByRangeStart (cstyleFrom tokens text options).toAbstractTokenList s = none) := by
  refine ⟨fun st t h => ?_, fun l i h => ?_, fun l i h => ?_,
    fun tokens text options s h => ?_⟩
  · have hn : lookupOrig st.originalComments t = none := lookupOrig_eq_none _ t h
    refine ⟨hn, ?_⟩
    unfold getOriginalCommentIndent
    rw [hn]
  · unfold findPreviousLineBreak findPreviousLineBreakIdx
    cases i with
    | zero => rfl
    | succ i' =>
      show (fplbAux l i').bind l.get? = none
      rw [(fplbAux_none_iff l i').mpr (fun k hk => h k (by omega))]
      rfl
  · cases i with
    | zero => rfl
    | succ i' =>
      exact fpiAux_none_off_front l i' (fun k hk => h k (by omega))
  · cases hcase : (fromSource tokens text options).rangeStarts s with
    | none => exact hcase
    | some t =>
      obtain ⟨hmem, hr⟩ := (fromSource_inv tokens text options).2 s t hcase
      exact absurd hr (h t hmem)

/-- Witness for C9: the empty C-style list and the `comment, space,
identifier` sequence give the not-found results. -/
theorem C9_witness :
    (getOriginalComment (cstyleFrom [] "".data DEFAULT_OPTIONS) exA = none ∧
     getOriginalCommentIndent (cstyleFrom [] "".data DEFAULT_OPTIONS) exA = "") ∧
    findPreviousLineBreak c5List 1 = none ∧
    findPreviousIndent c5List 1 = none ∧
    getByRangeStart (cstyleFrom [] "".data DEFAULT_OPTIONS).toAbstractTokenList 5
      = none := by
  have h := C9_lookup_never_fails
  refine ⟨h.1 _ exA (by decide), h.2.1 c5List 1 ?_, h.2.2.1 c5List 1 ?_,
    h.2.2.2 [] "".data DEFAULT_OPTIONS 5 (by decide)⟩
  · intro j hj
    interval_cases j
    decide
  · intro j hj
    interval_cases j
    decide

/-- C6: `findPreviousIndent(t)` walks the predecessors of `t`: whenever it
returns a token, that token is an indent among the predecessors and is the
first one found on the walk (no indent and no line break lies between it
and `t`), so in particular nothing but an indent is ever returned;
conversely the first indent reached on the walk, with no line break in
between, **is** returned; and it returns nothing whenever a line break is
reached before any indent. -/
theorem C6_findPreviousIndent (l : List Token) (i : Nat) :
    (∀ t, findPreviousIndent l i = some t →
      ∃ m, m < i ∧ l.get? m = some t ∧ isIndentAt l m = true ∧
        ∀ k, m < k → k < i →
          isIndentAt l k = false ∧ isLineBreakB (l.get? k) = false) ∧
    (∀ m, m < i → isIndentAt l m = true →
      (∀ k, m < k → k < i →
        isIndentAt l k = false ∧ isLineBreakB (l.get? k) = false) →
      findPreviousIndent l i = l.get? m) ∧
    (∀ m, m < i → isLineBreakB (l.get? m) = true →
      (∀ k, m < k → k < i → isIndentAt l k = false) →
      findPreviousIndent l i = none) := by
  cases i with
  | zero =>
    refine ⟨fun t h => ?_, fun m hm => absurd hm (Nat.not_lt_zero m),
      fun m hm => absurd hm (Nat.not_lt_zero m)⟩
    cases h
  | succ i' =>
    refine ⟨?_, ?_, ?_⟩
    · intro t h
      obtain ⟨m, hm, hg, hind, hbet⟩ := fpiAux_some l i' t h
      exact ⟨m, by omega, hg, hind, fun k hk1 hk2 => hbet k hk1 (by omega)⟩
    · intro m hm hind hbet
      exact fpiAux_some_intro l i' m (by omega) hind
        (fun k hk1 hk2 => hbet k hk1 (by omega))
    · intro m hm hlb hno
      exact fpiAux_none_of_lb l i' m (by omega) hlb
        (fun k hk1 hk2 => hno k hk1 (by omega))

/-- Witness for C6: on `line break, indent, comment` the walk from the
comment returns exactly the indent member (the positive guarantee), that
result is characterized as the first indent on the walk, and on a lone
line break the walk from position 1 hits the line break and returns
nothing. -/
theorem C6_witness :
    findPreviousIndent c6List 2
      = some { type := "Whitespace", value := "  ", range := (1, 3) } ∧
    (∃ m, m < 2 ∧
      c6List.get? m = some { type := "Whitespace", value := "  ", range := (1, 3) } ∧
      isIndentAt c6List m = true ∧
      ∀ k, m < k → k < 2 →
        isIndentAt c6List k = false ∧ isLineBreakB (c6List.get? k) = false) ∧
    findPreviousIndent [{ type := "LineBreak", value := "\n", range := (0, 0) }] 1
      = none := by
  refine ⟨?_, ?_, ?_⟩
  · exact ((C6_findPreviousIndent c6List 2).2.1 1 (by decide) (by decide)
      (fun k h1 h2 => absurd h2 (by omega))).trans (by decide)
  · exact (C6_findPreviousIndent c6List 2).1 _ (by rfl)
  · exact (C6_findPreviousIndent [{ type := "LineBreak", value := "\n", range := (0, 0) }] 1).2.2
      0 (by decide) (by decide) (fun k h1 h2 => absurd h2 (by omega))

theorem isIndentDecreaser_eq (l : List Token) (i : Nat) (t : Token)
    (hg : l.get? i = some t) :
    isIndentDecreaser l i
      = (if isDecreaseChar t.value then
          match findPreviousLineBreakIdx l i with
          | none => true
          | some j => nextTokenIdx l j == some i
        else false) := by
  unfold isIndentDecreaser
  rw [hg]

theorem solid_eq_not_skippable (u : Token) : solidTok u = !(skippableTok u) := by
  simp [solidTok, skippableTok, Bool.not_or]

theorem solid_false_iff (u : Token) : solidTok u = false ↔ skippableTok u = true := by
  rw [solid_eq_not_skippable]
  cases skippableTok u <;> simp

/-- C4 counterexample: C-style construction on the source text
`"\n/*c*/\x7d"` (a block comment and a closing brace after a newline)
builds exactly the member sequence `line break, block comment, closing
brace`; on its closing brace the code's `isIndentDecreaser` returns true —
its `nextToken` walk skips the comment as well — while the claim's
wording, which skips only whitespace after the nearest previous line
break, demands false. -/
theorem C4_counterexample :
    (cstyleFrom
        [{ type := "BlockComment", value := "/*c*/", range := (1, 6) },
         { type := "Punctuator", value := "\x7d", range := (6, 7) }]
        "\n/*c*/\x7d".data DEFAULT_OPTIONS).items = c4List ∧
    isIndentDecreaser c4List 2 = true ∧
    isIndentDecreaserClaim c4List 2 = false := by
  refine ⟨by decide, rfl, rfl⟩

/-- C4 (amended): `isIndentDecreaser(t)` is true iff `t.value` is one of
the closing brackets and either no line break precedes `t` in the list, or
the token immediately following the nearest previous line break — skipping
whitespace, line breaks and comments — is `t` itself. -/
theorem C4_isIndentDecreaser_amended (l : List Token) (i : Nat) (t : Token)
    (hg : l.get? i = some t) :
    isIndentDecreaser l i = true ↔
      (isDecreaseChar t.value = true ∧
        ((∀ j, j < i → isLineBreakB (l.get? j) = false) ∨
         (∃ j, j < i ∧ isLineBreakB (l.get? j) = true ∧
           (∀ k, j < k → k < i → isLineBreakB (l.get? k) = false) ∧
           (∀ k, j < k → k < i → ∃ u, l.get? k = some u ∧ skippableTok u = true) ∧
           skippableTok t = false))) := by
  rw [isIndentDecreaser_eq l i t hg]
  by_cases hd : isDecreaseChar t.value = true
  · rw [if_pos hd]
    cases i with
    | zero =>
      simp only [findPreviousLineBreakIdx]
      constructor
      · intro _
        exact ⟨hd, Or.inl (fun j hj => absurd hj (Nat.not_lt_zero j))⟩
      · intro _
        trivial
    | succ i' =>
      simp only [findPreviousLineBreakIdx]
      cases hfp : fplbAux l i' with
      | none =>
        constructor
        · intro _
          exact ⟨hd, Or.inl (fun j hj =>
            (fplbAux_none_iff l i').mp hfp j (by omega))⟩
        · intro _
          trivial
      | some j =>
        obtain ⟨hji, hjlb, hjbet⟩ := fplbAux_some_elim l i' j hfp
        rw [show ((nextTokenIdx l j == some (i' + 1)) = true)
              ↔ nextTokenIdx l j = some (i' + 1) from beq_iff_eq]
        constructor
        · intro hnt
          obtain ⟨hle, ⟨t', hgt', hsolid⟩, hbetween⟩ :=
            findFrom_some_elim l solidTok (j + 1) (i' + 1) hnt
          rw [hg] at hgt'
          cases hgt'
          refine ⟨hd, Or.inr ⟨j, by omega, hjlb, ?_, ?_, ?_⟩⟩
          · intro k h1 h2
            exact hjbet k h1 (by omega)
          · intro k h1 h2
            obtain ⟨u, hu, hsu⟩ := hbetween k (by omega) h2
            exact ⟨u, hu, (solid_false_iff u).mp hsu⟩
          · rw [solid_eq_not_skippable] at hsolid
            cases hsk : skippableTok t with
            | false => rfl
            | true =>
              rw [hsk] at hsolid
              simp at hsolid
        · rintro ⟨-, hcase⟩
          rcases hcase with hnone | ⟨j0, hj0, hj0lb, hj0near, hj0skip, hskt⟩
          · exact absurd hjlb (bool_ne_true (hnone j (by omega)))
          · have : fplbAux l i' = some j0 :=
              fplbAux_some_intro l i' j0 (by omega) hj0lb
                (fun k h1 h2 => hj0near k h1 (by omega))
            rw [hfp] at this
            cases this
            apply findFrom_some_intro l solidTok (i' + 1 - (j + 1)) (j + 1) (i' + 1)
              (Nat.le_refl _) (by omega)
            · intro k h1 h2
              obtain ⟨u, hu, hsu⟩ := hj0skip k (by omega) h2
              exact ⟨u, hu, (solid_false_iff u).mpr hsu⟩
            · exact hg
            · rw [solid_eq_not_skippable, hskt]
              rfl
  · rw [if_neg hd]
    constructor
    · intro h; cases h
    · rintro ⟨h, -⟩
      exact absurd h hd

/-- Witness for C4 (amended) on `line break, closing brace`: the brace is
the first token after the line break, so `isIndentDecreaser` accepts it. -/
theorem C4_witness :
    isIndentDecreaser
      [{ type := "LineBreak", value := "\n", range := (0, 0) },
       { type := "Punctuator", value := "\x7d", range := (1, 2) }] 1 = true := by
  refine (C4_isIndentDecreaser_amended
      [{ type := "LineBreak", value := "\n", range := (0, 0) },
       { type := "Punctuator", value := "\x7d", range := (1, 2) }] 1
      { type := "Punctuator", value := "\x7d", range := (1, 2) } rfl).mpr
    ⟨by decide, Or.inr ⟨0, by decide, by decide, ?_, ?_, by decide⟩⟩
  · intro k h1 h2
    exact absurd h2 (by omega)
  · intro k h1 h2
    exact absurd h2 (by omega)

/-- C5 (code evaluated at the failing input): on the member sequence
`line comment, whitespace, identifier`, `previousToken` of the identifier
returns the line comment — a comment token — because the matcher in the
source tests `isComment(startToken)` instead of `isComment(token)`,
contradicting the method's own documentation. -/
theorem C5_previousToken_returns_comment :
    previousToken c5List 2
        = some { type := "LineComment", value := "//x", range := (0, 3) } ∧
    isCommentTok { type := "LineComment", value := "//x", range := (0, 3) } = true := by
  constructor <;> rfl

end Nitpik
